import Mathlib

/-!
# Verification of the scrapebase concurrency and crawling core

This file gives a shallow embedding of the parts of the scrapebase service
that the specification's claims concern, and settles each claim against it:

* the `RequestQueue` admission queue (`src/utils/requestQueue.ts`), modelled
  as a state machine whose atomic steps mirror the synchronous blocks of the
  single-threaded JavaScript runtime;
* the error classifier `parseError` and the `ErrorCode` table
  (`src/utils/errorHandler.ts`);
* the retry driver `processWithRetry` (`src/processLinks.ts`);
* the in-page contact-link collector (`src/processLinks.ts`, page.evaluate);
* the URL bucket merge of the `/api/processWebsite` route and the per-scrape
  `removeDuplicates` helper;
* `selectBestSubpages`, the route-level subpage filter, and the subpage batch
  processor (`src/routes/processWebsite.ts`).

JavaScript strings are Lean `String`s; `includes`, `startsWith`, `trim` and
`toLowerCase` are re-implemented over `List Char` so that every statement is
kernel-decidable.  WHATWG URLs are represented structurally (`Url`), with
`href` as the serialisation; the string surgery the source performs on
serialised URLs (`replace(/\/$/, '')` and friends) is applied to `href`
output, faithfully to the source regexes.
-/

namespace Scrapebase

/-! ## JavaScript string primitives -/

/-- Character-level prefix test: `listHasPrefix pat s` is true when `pat`
is an initial segment of `s`. -/
def listHasPrefix : List Char → List Char → Bool
  | [], _ => true
  | _ :: _, [] => false
  | a :: as, b :: bs => a = b && listHasPrefix as bs

/-- Character-level substring test, the semantics of JavaScript
`String.prototype.includes`. -/
def listHasInfix (pat : List Char) : List Char → Bool
  | [] => listHasPrefix pat []
  | c :: rest => listHasPrefix pat (c :: rest) || listHasInfix pat rest

/-- JavaScript `s.includes(pat)`. -/
def jsIncludes (s pat : String) : Bool := listHasInfix pat.data s.data

/-- JavaScript `s.startsWith(pat)`. -/
def jsStartsWith (s pat : String) : Bool := listHasPrefix pat.data s.data

/-- JavaScript `s.toLowerCase()` (ASCII letters, which is all the source
compares). -/
def jsToLower (s : String) : String := ⟨s.data.map Char.toLower⟩

/-- Whitespace recognised by `trim` on the inputs at hand. -/
def isWsChar (c : Char) : Bool := c = ' ' || c = '\t' || c = '\n' || c = '\r'

/-- JavaScript `s.trim()`. -/
def jsTrim (s : String) : String :=
  ⟨((s.data.dropWhile isWsChar).reverse.dropWhile isWsChar).reverse⟩

/-- Drop the first `n` characters, JavaScript `s.substring(n)`. -/
def jsDrop (s : String) (n : Nat) : String := ⟨s.data.drop n⟩

/-! ## Error handler (`src/utils/errorHandler.ts`) -/

/-- The `ErrorCode` enum of `errorHandler.ts` (lines 45-56). -/
inductive ErrorCode where
  | MISSING_PARAM
  | TIMEOUT
  | SCRAPING_ERROR
  | INVALID_URL
  | SERVER_ERROR
  | RATE_LIMIT
  | QUEUE_TIMEOUT
  | UNAUTHORIZED
  | BROWSER_ERROR
  | VALIDATION_ERROR
deriving DecidableEq, Repr

/-- The HTTP status table `statusCodeMap` (`errorHandler.ts` lines 61-72). -/
def statusCodeMap : ErrorCode → Nat
  | .MISSING_PARAM => 400
  | .TIMEOUT => 408
  | .SCRAPING_ERROR => 422
  | .INVALID_URL => 400
  | .SERVER_ERROR => 500
  | .RATE_LIMIT => 429
  | .QUEUE_TIMEOUT => 429
  | .UNAUTHORIZED => 401
  | .BROWSER_ERROR => 500
  | .VALIDATION_ERROR => 400

/-- `parseError` (`errorHandler.ts` lines 152-206) restricted to the code it
assigns to an `Error`'s message, which is all the claims consult. -/
def parseErrorCode (msg : String) : ErrorCode :=
  let m := jsToLower msg
  if jsIncludes m "timeout" || jsIncludes m "timed out" then .TIMEOUT
  else if jsIncludes m "net::" || jsIncludes m "network" || jsIncludes m "connection" then
    .SCRAPING_ERROR
  else if jsIncludes m "browser" || jsIncludes m "context" || jsIncludes m "page" ||
      jsIncludes m "execution context destroyed" then .BROWSER_ERROR
  else if jsIncludes m "invalid" || jsIncludes m "required" then .VALIDATION_ERROR
  else .SERVER_ERROR

/-! ## RequestQueue (`src/utils/requestQueue.ts`)

The queue is single-threaded JavaScript: every synchronous block runs
atomically.  The externally triggered blocks are (a) an `enqueue` call (push
to `this.queue`, then one synchronous `processQueue` prefix up to the point
the dispatched task suspends), (b) a task settling (the `finally` block:
decrement `activeRequests`, then `processQueue` again), (c) a queue-wait
timer firing (`handleQueueTimeout`).  The model's step function applies
exactly those blocks. -/

namespace RequestQueue

/-- Observable events, recorded in the order they happen. -/
inductive Ev where
  | enq (id : Nat)
  | start (id : Nat)
  | done (id : Nat)
  | qto (id : Nat)
deriving DecidableEq, Repr

/-- External stimuli driving the queue. -/
inductive Act where
  | enqueue (id : Nat)
  | complete (id : Nat)
  | queueTimeout (id : Nat)
deriving DecidableEq, Repr

/-- Queue state: `waiting` is `this.queue` (head = front), `active` the ids
counted by `this.activeRequests`, `log` the event history. -/
structure QState where
  waiting : List Nat
  active : List Nat
  log : List Ev
deriving DecidableEq, Repr

def init : QState := ⟨[], [], []⟩

/-- `processQueue` (requestQueue.ts lines 89-108): if below capacity and the
queue is non-empty, shift the head, clear its wait timer, increment
`activeRequests` and start its task. -/
def processQueue (maxConcurrent : Nat) (s : QState) : QState :=
  if maxConcurrent ≤ s.active.length then s
  else
    match s.waiting with
    | [] => s
    | h :: t => { waiting := t, active := s.active ++ [h], log := s.log ++ [.start h] }

/-- One atomic block.  `enqueue` is lines 59-84 (push, then `processQueue`);
`complete` is the `finally` of lines 134-140 (decrement, then
`processQueue`); `queueTimeout` is `handleQueueTimeout`, lines 146-157
(remove from the queue and reject, a no-op when the item already left the
queue). -/
def step (maxConcurrent : Nat) (s : QState) : Act → QState
  | .enqueue id =>
      processQueue maxConcurrent
        { s with waiting := s.waiting ++ [id], log := s.log ++ [.enq id] }
  | .complete id =>
      if id ∈ s.active then
        processQueue maxConcurrent
          { s with active := s.active.erase id, log := s.log ++ [.done id] }
      else s
  | .queueTimeout id =>
      if id ∈ s.waiting then
        { s with waiting := s.waiting.erase id, log := s.log ++ [.qto id] }
      else s

/-- Run a list of stimuli from the empty queue. -/
def run (maxConcurrent : Nat) (acts : List Act) : QState :=
  acts.foldl (step maxConcurrent) init

/-- The queue invariant: never more in flight than `maxConcurrent`, and
items wait only while the capacity is exhausted. -/
def Inv (maxConcurrent : Nat) (s : QState) : Prop :=
  s.active.length ≤ maxConcurrent ∧
    (s.waiting ≠ [] → s.active.length = maxConcurrent)

/-- The rejection message of `handleQueueTimeout` (requestQueue.ts line
155). -/
def queueTimeoutMessage (queueTimeout : Nat) : String :=
  "Request timed out after " ++ toString queueTimeout ++ "ms waiting in queue"

/-- The rejection message of the running-request timeout (requestQueue.ts
line 119). -/
def requestTimeoutMessage (requestTimeout : Nat) : String :=
  "Request timed out after " ++ toString requestTimeout ++ "ms"

end RequestQueue

/-! ## processWithRetry (`src/processLinks.ts` lines 346-376) -/

/-- The backoff the source computes after failed attempt `attempt`:
`Math.min(1000 * Math.pow(2, attempt - 1), 5000)`. -/
def backoffMs (attempt : Nat) : Nat := min (1000 * 2 ^ (attempt - 1)) 5000

/-- Outcome of a retry run: the settled result, the number of attempts
actually made, and the sleeps taken between consecutive attempts. -/
structure RetryTrace (E A : Type) where
  result : Except E A
  attemptsMade : Nat
  sleeps : List Nat
deriving Repr

/-- The loop body of `processWithRetry`: attempt numbers count up from
`attempt`; `remaining` is how many further attempts the loop bound
`attempt <= maxRetries + 1` still allows. -/
def retryGo (f : Nat → Except E A) (attempt : Nat) : Nat → RetryTrace E A
  | 0 =>
      { result := f attempt, attemptsMade := 1, sleeps := [] }
  | remaining + 1 =>
      match f attempt with
      | .ok a => { result := .ok a, attemptsMade := 1, sleeps := [] }
      | .error _ =>
          let t := retryGo f (attempt + 1) remaining
          { result := t.result, attemptsMade := t.attemptsMade + 1,
            sleeps := backoffMs attempt :: t.sleeps }

/-- `processWithRetry(url, requestId, maxRetries)` with the per-attempt
outcome abstracted as `f : Nat → Except E A` (attempt numbers start at 1):
return the first success; after a failure of attempt `n ≤ maxRetries`,
sleep `backoffMs n` and try again; when every attempt fails, throw the last
error. -/
def processWithRetry (f : Nat → Except E A) (maxRetries : Nat) : RetryTrace E A :=
  retryGo f 1 maxRetries

/-! ## Generic first-occurrence deduplication

The source repeatedly filters a list through a closure over a mutable
`Set` of seen keys: an element is kept when it passes a pure predicate and
its key is new, and only kept elements add their key.  `guardedDedupAux`
is the direct functional rendering of that pattern; `[...new Set(xs)]` is
the instance with a trivial predicate. -/

/-- Filter by `pred` while deduplicating by `key`, carrying the seen-key
set explicitly. -/
def guardedDedupAux [DecidableEq κ] (pred : α → Bool) (key : α → κ)
    (seen : List κ) : List α → List α
  | [] => []
  | x :: rest =>
      if pred x ∧ key x ∉ seen then
        x :: guardedDedupAux pred key (key x :: seen) rest
      else guardedDedupAux pred key seen rest

/-- First-occurrence deduplication by a key function (a `Set` of the
keys). -/
def dedupBy [DecidableEq κ] (key : α → κ) (l : List α) : List α :=
  guardedDedupAux (fun _ => true) key [] l

/-- `[...new Set(xs)]`: first occurrences, in input order. -/
def dedupKeepFirst [DecidableEq α] (l : List α) : List α := dedupBy id l

/-! ## URL normalization of the `/api/processWebsite` route (C5)

`src/routes/processWebsite.ts` lines 866-878: the live code is only
`url.trim().toLowerCase()`; the scheme addition, the `http→https` rewrite
and the `validator.isURL` check are commented out. -/

/-- The transformation actually applied to the input URL before the root
scrape: `let formattedUrl = url.trim().toLowerCase()`. -/
def routeNormalizeUrl (url : String) : String := jsToLower (jsTrim url)

/-- The normalization the specification describes (WebsiteCrawler step 1 and
the commented-out block at lines 869-878): trim and lowercase, prepend
`https://` when no scheme is present, rewrite a leading `http://` to
`https://`. -/
def specNormalizeUrl (url : String) : String :=
  let s := jsToLower (jsTrim url)
  let s := if !(jsStartsWith s "http://") && !(jsStartsWith s "https://") then
    "https://" ++ s else s
  if jsStartsWith s "http://" then "https://" ++ jsDrop s 7 else s

/-! ## In-page contact-link collection (`src/processLinks.ts` lines 487-562, C6) -/

/-- One entry of the page's `contactLinks` array. -/
structure ContactEntry where
  url : String
  text : String
  ctype : String
  context : String
deriving DecidableEq, Repr

/-- An `<a href>` anchor as seen by the evaluate callback: href, trimmed
text, and the 100-char context excerpt. -/
structure Anchor where
  href : String
  text : String
  context : String
deriving DecidableEq, Repr

/-- The `contactServices` table (processLinks.ts lines 493-498). -/
def contactServices : List (String × List String) :=
  [("calendar", ["calendly.com", "cal.com", "youcanbook.me", "meetingbird.com",
      "doodle.com", "meetbot"]),
   ("meeting", ["meet.google.com", "zoom.us", "teams.microsoft.com", "webex.com",
      "gotomeeting.com"]),
   ("form", ["forms.", "typeform", "surveymonkey", "formstack", "wufoo", "jotform"]),
   ("chat", ["intercom", "zendesk", "livechat", "tawk.to", "drift.com", "olark",
      "chatwoot"])]

/-- The per-anchor body of the `links.forEach` loop (lines 506-540):
`mailto:` anchors become `email` entries, service-matching anchors become
entries of the service's type, each deduplicated against the entries already
collected. -/
def processAnchor (acc : List ContactEntry) (a : Anchor) : List ContactEntry :=
  if jsStartsWith a.href "mailto:" then
    if acc.any (fun e => e.url = a.href) then acc
    else acc ++ [⟨a.href, if a.text = "" then jsDrop a.href 7 else a.text, "email", a.context⟩]
  else
    match contactServices.find? (fun s => s.2.any (fun pat => jsIncludes a.href pat)) with
    | some s =>
        if acc.any (fun e => e.url = a.href) then acc
        else acc ++ [⟨a.href, a.text, s.1, a.context⟩]
    | none => acc

/-- The body of the `uniqueEmails.forEach` loop (lines 550-560): append the
email as a `mailto:` entry of type `email` unless that URL is already
collected. -/
def addTextEmail (acc : List ContactEntry) (email : String) : List ContactEntry :=
  let mailtoUrl := "mailto:" ++ email
  if acc.any (fun e => e.url = mailtoUrl) then acc
  else acc ++ [⟨mailtoUrl, email, "email", ""⟩]

/-- The contact-data evaluate callback (lines 487-562).  `emailMatches` is
the list of matches the email regular expression produces on
`document.body.textContent`: the callback deduplicates it with a `Set` and
appends every unique email not already present.  The live loop has no cap
(the `.slice(0, 5)` variant exists only in commented-out code in
`browserManager.ts`). -/
def contactLinksFromPage (anchors : List Anchor) (emailMatches : List String) :
    List ContactEntry :=
  (dedupKeepFirst emailMatches).foldl addTextEmail (anchors.foldl processAnchor [])

/-! ## Link buckets and the merge (`processLinks.ts` lines 767-833,
`routes/processWebsite.ts` lines 963-1123, C7) -/

/-- `removeDuplicates` (processLinks.ts lines 767-775): keep the first item
for each URL (a `filter` over a seen-`Set` of urls).  Items are
(url, payload) pairs; the payload stands for the remaining fields. -/
def removeDuplicates (items : List (String × String)) : List (String × String) :=
  dedupBy Prod.fst items

/-- A JavaScript `Map<string, V>` keyed by URL, as an insertion-ordered
association list: `set` overwrites in place or appends. -/
def mapSet (m : List (String × String)) (k v : String) : List (String × String) :=
  if m.any (fun p => p.1 = k) then m.map (fun p => if p.1 = k then (k, v) else p)
  else m ++ [(k, v)]

/-- `Map.prototype.has`. -/
def mapHas (m : List (String × String)) (k : String) : Bool :=
  m.any (fun p => p.1 = k)

/-- `Map.prototype.delete`. -/
def mapDelete (m : List (String × String)) (k : String) : List (String × String) :=
  m.filter (fun p => p.1 ≠ k)

/-- The main-page collection loops (lines 971-1019): unconditional `set`. -/
def addAll (m : List (String × String)) (items : List (String × String)) :
    List (String × String) :=
  items.foldl (fun m it => mapSet m it.1 it.2) m

/-- The subpage collection loops (lines 1048-1123): `set` only when the key
is absent. -/
def addAllIfAbsent (m : List (String × String)) (items : List (String × String)) :
    List (String × String) :=
  items.foldl (fun m it => if mapHas m it.1 then m else mapSet m it.1 it.2) m

/-- The social and external buckets of one page result (url ↦ payload). -/
structure PageBuckets where
  social : List (String × String)
  external : List (String × String)
deriving DecidableEq, Repr

/-- The social/external part of the `/api/processWebsite` merge, in source
order: collect the main page's URLs (lines 981-1019), delete every social
URL from the external map (lines 1021-1025), then fold the successful
subpage results in, adding keys not yet present (lines 1048-1123). -/
def mergeSocialExternal (main : PageBuckets) (subs : List PageBuckets) : PageBuckets :=
  let social0 := addAll [] main.social
  let external0 := addAll [] main.external
  let external1 := social0.foldl (fun ext p => mapDelete ext p.1) external0
  { social := subs.foldl (fun acc b => addAllIfAbsent acc b.social) social0,
    external := subs.foldl (fun acc b => addAllIfAbsent acc b.external) external1 }

/-! ## WHATWG URLs, structurally

A parsed URL is represented by its components; `href` is the
serialisation.  `host` is the hostname with any leading `www.` stripped
(the `www` flag records whether it was present), so
`hostname.replace(/^www\./, '')` is exactly `host`. -/

structure Url where
  scheme : String
  www : Bool
  host : String
  port : Option Nat
  segs : List String
  frag : Option String
deriving DecidableEq, Repr

/-- `new URL(x).hostname`. -/
def hostname (u : Url) : String := (if u.www then "www." else "") ++ u.host

/-- Host plus the optional `:port` suffix, as serialised in `href`. -/
def hostport (u : Url) : String :=
  hostname u ++ (match u.port with | none => "" | some p => ":" ++ toString p)

/-- `new URL(x).pathname`: `"/"` for an empty path, else `"/a/b"`; a
trailing empty segment encodes a trailing slash. -/
def pathname (u : Url) : String := "/" ++ String.intercalate "/" u.segs

/-- `new URL(x).href` = `toString()`. -/
def href (u : Url) : String :=
  u.scheme ++ "://" ++ hostport u ++ pathname u ++
    (match u.frag with | none => "" | some f => "#" ++ f)

/-- `url.split('#')[0]` applied to a serialised URL. -/
def dropFrag (u : Url) : Url := { u with frag := none }

/-- A candidate link URL as it appears in `page_urls`: an absolute URL, a
root-relative path, or a string the URL parser rejects. -/
inductive LinkUrl where
  | abs (u : Url)
  | rel (segs : List String)
  | bad
deriving DecidableEq, Repr

/-- `new URL(link.url, baseUrl)` with a successfully parsed base: an
absolute link stands alone, a relative one takes the base's origin. -/
def resolveWith (b : Url) : LinkUrl → Option Url
  | .abs u => some u
  | .rel segs => some { b with segs := segs, frag := none }
  | .bad => none

/-- `new URL(link.url, baseUrl)` in general: the constructor parses the
base first, so an unparseable base throws for every link. -/
def resolveStr (base : Option Url) (l : LinkUrl) : Option Url :=
  match base with
  | none => none
  | some b => resolveWith b l

/-- `isSameDomain` (routes/processWebsite.ts lines 762-766) as used in the
filter at lines 1238-1245: hostnames compared after stripping a leading
`www.`; a link the URL parser rejects throws inside the filter's `try`,
which assumes it internal. -/
def isSameDomainOrAssumed (b : Url) : LinkUrl → Bool
  | .abs u => u.host = b.host
  | .rel _ => true
  | .bad => true

/-- `s.replace(/\/$/, '')`. -/
def stripTrailingSlash (s : String) : String :=
  match s.data.getLast? with
  | some '/' => ⟨s.data.dropLast⟩
  | _ => s

/-- `s.replace(/^https?:\/\//, '')`. -/
def stripSchemePrefix (s : String) : String :=
  if jsStartsWith s "https://" then jsDrop s 8
  else if jsStartsWith s "http://" then jsDrop s 7
  else s

/-- `s.replace(/^www\./, '')`. -/
def stripWwwPrefix (s : String) : String :=
  if jsStartsWith s "www." then jsDrop s 4 else s

/-- The comparison normalisation used three times in the route
(`new URL(url).toString().replace(/\/$/, '').replace(/^https?:\/\//, '')
.replace(/^www\./, '')`). -/
def normCompare (u : Url) : String :=
  stripWwwPrefix (stripSchemePrefix (stripTrailingSlash (href u)))

/-- `s.split('/')[0]`. -/
def takeToSlash (s : String) : String := ⟨s.data.takeWhile (fun c => c ≠ '/')⟩

/-! ## selectBestSubpages (`routes/processWebsite.ts` lines 1222-1372, C8 & C10) -/

/-- `path.split('/').filter(segment => segment.length > 0).length`. -/
def urlDepth (u : Url) : Nat := (u.segs.filter (fun s => s.length > 0)).length

/-- `path.length` of the pathname. -/
def urlPathLen (u : Url) : Nat := (pathname u).length

/-- The `importantSections` table (line 1301). -/
def importantSections : List String :=
  ["/about", "/products", "/services", "/faq", "/features"]

/-- The score of one depth-filtered candidate (lines 1284-1309): depth
bonus, short-path bonus, 20 per matching keyword, 15 per important
section.  `urlDepth u ≤ maxDepth` holds for every scored candidate, so the
JavaScript subtraction is the truncated one. -/
def scoreUrl (maxDepth : Nat) (keywords : List String) (u : Url) : Nat :=
  (maxDepth - urlDepth u) * 10 + (100 - urlPathLen u) +
    20 * keywords.countP (fun kw => jsIncludes (jsToLower (href u)) (jsToLower kw)) +
    15 * importantSections.countP (fun sec => jsIncludes (jsToLower (href u)) sec)

/-- A candidate with its first-seen position and score. -/
structure Scored where
  idx : Nat
  score : Nat
  url : Url
deriving DecidableEq, Repr

/-- Insertion step of the stable descending sort: higher score first, ties
in first-seen order (`scoredUrls.sort((a, b) => b.score - a.score)` with
the ECMAScript stable `Array.prototype.sort`). -/
def sortInsert (a : Scored) : List Scored → List Scored
  | [] => [a]
  | b :: t =>
      if a.score > b.score ∨ (a.score = b.score ∧ a.idx < b.idx) then a :: b :: t
      else b :: sortInsert a t

/-- Stable sort by descending score. -/
def sortScored (l : List Scored) : List Scored := l.foldr sortInsert []

/-- The scoring pipeline of the `try` block up to `overSelectedUrls` (lines
1238-1321): same-domain filter, resolution with fragment stripping,
deduplication, exclude patterns, depth filter, scoring, stable sort, top
`2 × count`. -/
def scoredCandidates (pageUrls : List LinkUrl) (b : Url) (count : Nat)
    (keywords : List String) (excludePatterns : List String) (maxDepth : Nat) :
    List Url :=
  let internalUrls := pageUrls.filter (isSameDomainOrAssumed b)
  let normalizedUrls := internalUrls.filterMap (fun l => (resolveWith b l).map dropFrag)
  let uniqueUrls := dedupBy href normalizedUrls
  let filteredUrls := uniqueUrls.filter
    (fun u => !(excludePatterns.any (fun pat => jsIncludes (href u) pat)))
  let depthFilteredUrls := filteredUrls.filter (fun u => urlDepth u ≤ maxDepth)
  let scoredUrls := (List.range depthFilteredUrls.length).zip depthFilteredUrls
    |>.map (fun p => Scored.mk p.1 (scoreUrl maxDepth keywords p.2) p.2)
  ((sortScored scoredUrls).take (count * 2)).map (fun s => s.url)

/-- The final filter of `selectBestSubpages` (lines 1323-1353), a `filter`
over a seen-`Set` of normalized forms: drop the normalized root and
already-seen normalized forms, and drop candidates whose domain core
(`normalizedUrl.split('/')[0]`) does not contain the root's domain core
(`normalizedMain.split('/')[0]`) as a substring. -/
def keepWithDomainCheck (candidates : List Url) (normalizedMain : String) : List Url :=
  guardedDedupAux
    (fun u => normCompare u ≠ normalizedMain ∧
      jsIncludes (takeToSlash (normCompare u)) (takeToSlash normalizedMain))
    normCompare [] candidates

/-- The same filter as the claim and the spec state it: root removal and
deduplication by normalized form only, with no domain-core containment
check. -/
def keepAsClaimed (candidates : List Url) (normalizedMain : String) : List Url :=
  guardedDedupAux (fun u => normCompare u ≠ normalizedMain) normCompare [] candidates

/-- The `catch` fallback (lines 1358-1371): the first `count` unique
resolvable URLs from the raw input, with none of the scoring pipeline's
filters. -/
def fallbackSelect (pageUrls : List LinkUrl) (base : Option Url) (count : Nat) :
    List Url :=
  (dedupBy href (pageUrls.filterMap (resolveStr base))).take count

/-- `selectBestSubpages` (lines 1222-1372).  The only statement of the
`try` block that can throw is `new URL(baseUrl)` (line 1234; every other
URL construction sits inside its own `try` or operates on already-parsed
URLs), so the base is passed pre-parsed as `Option Url`, `none` standing
for an unparseable base string, which sends the call into the fallback. -/
def selectBestSubpages (pageUrls : List LinkUrl) (baseUrl : Option Url) (count : Nat)
    (keywords : List String) (excludePatterns : List String) (maxDepth : Nat) :
    List Url :=
  match baseUrl with
  | none => fallbackSelect pageUrls none count
  | some b =>
      (keepWithDomainCheck
        (scoredCandidates pageUrls b count keywords excludePatterns maxDepth)
        (normCompare b)).take count

/-- `selectBestSubpages` as claim C8 describes it: identical except that
the final filter is `keepAsClaimed`. -/
def selectBestSubpagesClaimed (pageUrls : List LinkUrl) (baseUrl : Option Url)
    (count : Nat) (keywords : List String) (excludePatterns : List String)
    (maxDepth : Nat) : List Url :=
  match baseUrl with
  | none => fallbackSelect pageUrls none count
  | some b =>
      (keepAsClaimed
        (scoredCandidates pageUrls b count keywords excludePatterns maxDepth)
        (normCompare b)).take count

/-- The route-level second filter over the selected subpage URLs
(lines 929-955), again a `filter` over a seen-`Set`: remove the normalized
main URL and duplicates by normalized form. -/
def routeFilterSubpages (selected : List Url) (mainUrl : Url) : List Url :=
  guardedDedupAux (fun u => normCompare u ≠ normCompare mainUrl) normCompare [] selected

/-! ## Subpage batch processing and the returned subpages list
(`routes/processWebsite.ts` lines 1453-1518 and 1128-1179, C9) -/

/-- How `processWithRetry` settles for one subpage URL, as observed by
`processUrlBatch`: a successful result carrying its title, a thrown error,
a `null`/empty response, or the 15 s per-subpage timer firing first. -/
inductive SubOutcome where
  | ok (title : String)
  | fail (msg : String)
  | empty
  | timedOut
deriving DecidableEq, Repr

/-- One element of the `subpageResults` array. -/
structure SubpageEntry where
  success : Bool
  url : Url
  title : String
  error : Option String
deriving DecidableEq, Repr

/-- `processUrlBatch` (lines 1453-1518): every job resolves — a success
passes the result through, an error resolves
`{success: false, url, error}`, an empty response and a timeout resolve
the corresponding `{success: false, ...}` objects. -/
def processUrlBatch (jobs : List (Url × SubOutcome)) : List SubpageEntry :=
  jobs.map (fun j =>
    match j.2 with
    | .ok title => ⟨true, j.1, title, none⟩
    | .fail msg => ⟨false, j.1, "", some msg⟩
    | .empty => ⟨false, j.1, "", some "Empty response"⟩
    | .timedOut => ⟨false, j.1, "", some "Subpage processing timeout"⟩)

/-- One entry of the `subpages` field of the aggregated result. -/
structure SubpageSummary where
  url : Url
  title : String
  success : Bool
deriving DecidableEq, Repr

/-- `simplifiedSubpages` (lines 1128-1147): keep only the successful
results, deduplicate by normalized URL, and map to
`{url, title, success: true}`. -/
def simplifiedSubpages (results : List SubpageEntry) : List SubpageSummary :=
  let successfulSubpages := results.filter (fun r => r.success)
  (dedupBy (fun r => normCompare r.url) successfulSubpages).map
    (fun r => ⟨r.url, r.title, true⟩)

/-- The subpage-related part of the aggregated `/api/processWebsite`
response (lines 1149-1179): `success` is literally `true` once the main
page scraped, `subpages` is `simplifiedSubpages`, and failed subpages are
only counted in `stats.subpagesFailed`. -/
structure CrawlOutcome where
  success : Bool
  subpages : List SubpageSummary
  subpagesFailed : Nat
deriving DecidableEq, Repr

/-- Build the subpage-related response fields from the batch results. -/
def aggregateCrawl (batchResults : List SubpageEntry) : CrawlOutcome :=
  { success := true,
    subpages := simplifiedSubpages batchResults,
    subpagesFailed := (batchResults.filter (fun r => !r.success)).length }

/-! # Theorems -/

/-! ## Properties of the seen-set filters -/

theorem guardedDedupAux_length_le [DecidableEq κ] (pred : α → Bool) (key : α → κ)
    (seen : List κ) (l : List α) :
    (guardedDedupAux pred key seen l).length ≤ l.length := by
  induction l generalizing seen with
  | nil => simp [guardedDedupAux]
  | cons x rest ih =>
      simp only [guardedDedupAux]
      split
      · simpa using ih (key x :: seen)
      · exact Nat.le_succ_of_le (ih seen)

theorem guardedDedupAux_mem [DecidableEq κ] (pred : α → Bool) (key : α → κ)
    (seen : List κ) (l : List α) :
    ∀ x ∈ guardedDedupAux pred key seen l, x ∈ l ∧ pred x = true ∧ key x ∉ seen := by
  induction l generalizing seen with
  | nil => simp [guardedDedupAux]
  | cons y rest ih =>
      simp only [guardedDedupAux]
      split
      · next hcond =>
          intro x hx
          rcases List.mem_cons.1 hx with hx | hx
          · subst hx
            exact ⟨List.mem_cons_self _ _, hcond.1, hcond.2⟩
          · obtain ⟨hmem, hp, hns⟩ := ih (key y :: seen) x hx
            exact ⟨List.mem_cons_of_mem _ hmem, hp,
              fun hk => hns (List.mem_cons_of_mem _ hk)⟩
      · intro x hx
        obtain ⟨hmem, hp, hns⟩ := ih seen x hx
        exact ⟨List.mem_cons_of_mem _ hmem, hp, hns⟩

theorem guardedDedupAux_key_nodup [DecidableEq κ] (pred : α → Bool) (key : α → κ)
    (seen : List κ) (l : List α) :
    ((guardedDedupAux pred key seen l).map key).Nodup := by
  induction l generalizing seen with
  | nil => simp [guardedDedupAux]
  | cons y rest ih =>
      simp only [guardedDedupAux]
      split
      · simp only [List.map_cons, List.nodup_cons]
        refine ⟨fun hmem => ?_, ih (key y :: seen)⟩
        obtain ⟨z, hz, hkeq⟩ := List.mem_map.1 hmem
        exact (guardedDedupAux_mem pred key _ rest z hz).2.2
          (hkeq ▸ List.mem_cons_self _ _)
      · exact ih seen

theorem getElem?_append_of_some {l1 l2 : List α} {i : Nat} {a : α}
    (h : l1[i]? = some a) : (l1 ++ l2)[i]? = some a := by
  rw [List.getElem?_append_left (List.getElem?_eq_some.1 h).1]
  exact h

/-! ## RequestQueue invariants (C1, C2, C3) -/

namespace RequestQueue

theorem inv_init (m : Nat) : Inv m init :=
  ⟨Nat.zero_le m, fun h => absurd rfl h⟩

theorem inv_step (m : Nat) (s : QState) (a : Act) (h : Inv m s) :
    Inv m (step m s a) := by
  obtain ⟨h1, h2⟩ := h
  cases a with
  | enqueue id =>
      rcases le_or_lt m s.active.length with hc | hc
      · have hstep : step m s (.enqueue id) =
            { waiting := s.waiting ++ [id], active := s.active,
              log := s.log ++ [.enq id] } := by
          simp [step, processQueue, hc]
        rw [hstep]
        exact ⟨h1, fun _ => Nat.le_antisymm h1 hc⟩
      · have hw : s.waiting = [] := by
          by_contra hne
          exact Nat.lt_irrefl m (h2 hne ▸ hc)
        have hstep : step m s (.enqueue id) =
            { waiting := [], active := s.active ++ [id],
              log := s.log ++ [.enq id, .start id] } := by
          simp [step, processQueue, hw, Nat.not_le.2 hc]
        rw [hstep]
        exact ⟨by simpa using hc, fun hne => absurd rfl hne⟩
  | complete id =>
      by_cases hid : id ∈ s.active
      · have hpos : 0 < s.active.length := List.length_pos_of_mem hid
        have herase : (s.active.erase id).length = s.active.length - 1 :=
          List.length_erase_of_mem hid
        have hlt : (s.active.erase id).length < m :=
          lt_of_lt_of_le (herase ▸ Nat.sub_lt hpos Nat.one_pos) h1
        have hlt' : s.active.length - 1 < m := herase ▸ hlt
        cases hw : s.waiting with
        | nil =>
            have hstep : step m s (.complete id) =
                { waiting := [], active := s.active.erase id,
                  log := s.log ++ [.done id] } := by
              simp [step, processQueue, hid, hw, Nat.not_le.2 hlt, Nat.not_le.2 hlt']
            rw [hstep]
            exact ⟨le_of_lt hlt, fun hne => absurd rfl hne⟩
        | cons w t =>
            have hfull : s.active.length = m := h2 (by simp [hw])
            have hstep : step m s (.complete id) =
                { waiting := t, active := s.active.erase id ++ [w],
                  log := s.log ++ [.done id, .start w] } := by
              simp [step, processQueue, hid, hw, Nat.not_le.2 hlt, Nat.not_le.2 hlt']
            rw [hstep]
            have hlen : (s.active.erase id ++ [w]).length = m := by
              simp only [List.length_append, List.length_cons, herase,
                List.length_nil]
              omega
            exact ⟨le_of_eq hlen, fun _ => hlen⟩
      · have hstep : step m s (.complete id) = s := by simp [step, hid]
        rw [hstep]
        exact ⟨h1, h2⟩
  | queueTimeout id =>
      by_cases hid : id ∈ s.waiting
      · have hstep : step m s (.queueTimeout id) =
            { waiting := s.waiting.erase id, active := s.active,
              log := s.log ++ [.qto id] } := by
          simp [step, hid]
        rw [hstep]
        refine ⟨h1, fun hne => h2 (fun hw => hne ?_)⟩
        rw [hw]
        rfl
      · have hstep : step m s (.queueTimeout id) = s := by simp [step, hid]
        rw [hstep]
        exact ⟨h1, h2⟩

theorem inv_foldl (m : Nat) (s : QState) (acts : List Act) (h : Inv m s) :
    Inv m (List.foldl (step m) s acts) := by
  induction acts generalizing s with
  | nil => exact h
  | cons a rest ih => exact ih _ (inv_step m s a h)

theorem inv_run (m : Nat) (acts : List Act) : Inv m (run m acts) :=
  inv_foldl m init acts (inv_init m)

theorem processQueue_log (m : Nat) (s : QState) :
    ∃ t, (processQueue m s).log = s.log ++ t := by
  unfold processQueue
  split
  · exact ⟨[], by simp⟩
  · split
    · exact ⟨[], by simp⟩
    · exact ⟨[.start _], rfl⟩

theorem step_log (m : Nat) (s : QState) (a : Act) :
    ∃ t, (step m s a).log = s.log ++ t := by
  cases a with
  | enqueue id =>
      obtain ⟨t, ht⟩ := processQueue_log m
        { s with waiting := s.waiting ++ [id], log := s.log ++ [.enq id] }
      exact ⟨[.enq id] ++ t, by simp only [step]; rw [ht]; simp⟩
  | complete id =>
      by_cases hid : id ∈ s.active
      · obtain ⟨t, ht⟩ := processQueue_log m
          { s with active := s.active.erase id, log := s.log ++ [.done id] }
        exact ⟨[.done id] ++ t, by simp only [step, if_pos hid]; rw [ht]; simp⟩
      · exact ⟨[], by simp [step, hid]⟩
  | queueTimeout id =>
      by_cases hid : id ∈ s.waiting
      · exact ⟨[.qto id], by simp [step, hid]⟩
      · exact ⟨[], by simp [step, hid]⟩

theorem foldl_log (m : Nat) (s : QState) (acts : List Act) :
    ∃ t, (List.foldl (step m) s acts).log = s.log ++ t := by
  induction acts generalizing s with
  | nil => exact ⟨[], by simp⟩
  | cons a rest ih =>
      obtain ⟨t1, ht1⟩ := step_log m s a
      obtain ⟨t2, ht2⟩ := ih (step m s a)
      exact ⟨t1 ++ t2, by simp only [List.foldl_cons]; rw [ht2, ht1, List.append_assoc]⟩

theorem enqueue_dispatches (m : Nat) (s : QState) (id : Nat) (hinv : Inv m s)
    (h : s.active.length < m) :
    step m s (.enqueue id) =
      { waiting := [], active := s.active ++ [id],
        log := s.log ++ [.enq id, .start id] } := by
  have hw : s.waiting = [] := by
    by_contra hne
    exact Nat.lt_irrefl m (hinv.2 hne ▸ h)
  simp [step, processQueue, hw, Nat.not_le.2 h]

end RequestQueue

open RequestQueue in
/-- C1: in every reachable state of the `RequestQueue` the number of tasks
dispatched but not yet completed is at most `maxConcurrent`, and an
`enqueue` performed while the in-flight count equals `maxConcurrent` only
appends the item to the tail of the queue — the state records no `start`
event for it and the in-flight set is unchanged. -/
theorem requestQueue_concurrency_bound (m : Nat) (acts : List Act) (id : Nat) :
    (run m acts).active.length ≤ m ∧
      ((run m acts).active.length = m →
        step m (run m acts) (.enqueue id) =
          { waiting := (run m acts).waiting ++ [id],
            active := (run m acts).active,
            log := (run m acts).log ++ [.enq id] }) := by
  refine ⟨(inv_run m acts).1, fun hfull => ?_⟩
  simp [step, processQueue, hfull.ge]

open RequestQueue in
/-- Witness for C1: with `maxConcurrent = 1` and one running task, a second
`enqueue` leaves the new task waiting. -/
theorem requestQueue_concurrency_bound_witness :
    (run 1 [.enqueue 0]).active.length = 1 ∧
      step 1 (run 1 [.enqueue 0]) (.enqueue 1) =
        { waiting := (run 1 [.enqueue 0]).waiting ++ [1],
          active := (run 1 [.enqueue 0]).active,
          log := (run 1 [.enqueue 0]).log ++ [.enq 1] } :=
  ⟨by decide, (requestQueue_concurrency_bound 1 [.enqueue 0] 1).2 (by decide)⟩

open RequestQueue in
/-- C2: if T1 is enqueued before T2, the in-flight count is below
`maxConcurrent` at both enqueue points, and the run continues arbitrarily,
then the `start` event of T1 occurs at a strictly earlier log position
than the `start` event of T2. -/
theorem requestQueue_fifo (m t1 t2 : Nat) (l1 l2 l3 : List Act)
    (h1 : (run m l1).active.length < m)
    (h2 : (run m (l1 ++ .enqueue t1 :: l2)).active.length < m) :
    ∃ i1 i2 : Nat, i1 < i2 ∧
      (run m (l1 ++ .enqueue t1 :: (l2 ++ .enqueue t2 :: l3))).log[i1]? =
        some (Ev.start t1) ∧
      (run m (l1 ++ .enqueue t1 :: (l2 ++ .enqueue t2 :: l3))).log[i2]? =
        some (Ev.start t2) := by
  have hd1 := enqueue_dispatches m (run m l1) t1 (inv_run m l1) h1
  have hrun2 : run m (l1 ++ .enqueue t1 :: l2) =
      List.foldl (step m) (step m (run m l1) (.enqueue t1)) l2 := by
    simp [run, List.foldl_append]
  have hd2 := enqueue_dispatches m (run m (l1 ++ .enqueue t1 :: l2)) t2
    (inv_run m (l1 ++ .enqueue t1 :: l2)) h2
  obtain ⟨tmid, hmid⟩ := foldl_log m (step m (run m l1) (.enqueue t1)) l2
  have hlog2 : (run m (l1 ++ .enqueue t1 :: l2)).log =
      ((run m l1).log ++ [.enq t1, .start t1]) ++ tmid := by
    rw [hrun2, hmid, hd1]
  have hrun3 : run m (l1 ++ .enqueue t1 :: (l2 ++ .enqueue t2 :: l3)) =
      List.foldl (step m)
        (step m (run m (l1 ++ .enqueue t1 :: l2)) (.enqueue t2)) l3 := by
    simp [run, List.foldl_append, hrun2]
  obtain ⟨tlast, hlast⟩ := foldl_log m
    (step m (run m (l1 ++ .enqueue t1 :: l2)) (.enqueue t2)) l3
  have hfin : (run m (l1 ++ .enqueue t1 :: (l2 ++ .enqueue t2 :: l3))).log =
      ((run m (l1 ++ .enqueue t1 :: l2)).log ++ [.enq t2, .start t2]) ++ tlast := by
    rw [hrun3, hlast, hd2]
  refine ⟨(run m l1).log.length + 1,
    (run m (l1 ++ .enqueue t1 :: l2)).log.length + 1, ?_, ?_, ?_⟩
  · have : (run m (l1 ++ .enqueue t1 :: l2)).log.length =
        (run m l1).log.length + 2 + tmid.length := by
      rw [hlog2]; simp; omega
    omega
  · have hbase : ((run m l1).log ++ [Ev.enq t1, Ev.start t1])[(run m l1).log.length + 1]? =
        some (Ev.start t1) := by
      rw [List.getElem?_append_right (by simp)]
      simp
    rw [hfin, hlog2]
    exact getElem?_append_of_some (getElem?_append_of_some
      (getElem?_append_of_some hbase))
  · have hbase : ((run m (l1 ++ .enqueue t1 :: l2)).log ++
        [Ev.enq t2, Ev.start t2])[(run m (l1 ++ .enqueue t1 :: l2)).log.length + 1]? =
        some (Ev.start t2) := by
      rw [List.getElem?_append_right (by simp)]
      simp
    rw [hfin]
    exact getElem?_append_of_some hbase

open RequestQueue in
/-- Witness for C2: with `maxConcurrent = 2`, tasks 0 and 1 enqueued in
order both start, in order. -/
theorem requestQueue_fifo_witness :
    (run 2 ([] : List Act)).active.length < 2 ∧
      (run 2 ([] ++ .enqueue 0 :: [])).active.length < 2 ∧
      ∃ i1 i2 : Nat, i1 < i2 ∧
        (run 2 ([] ++ .enqueue 0 :: ([] ++ .enqueue 1 :: []))).log[i1]? =
          some (Ev.start 0) ∧
        (run 2 ([] ++ .enqueue 0 :: ([] ++ .enqueue 1 :: []))).log[i2]? =
          some (Ev.start 1) :=
  ⟨by decide, by decide, requestQueue_fifo 2 0 1 [] [] [] (by decide) (by decide)⟩

open RequestQueue in
/-- C3 (code bug): when an item's queue-wait deadline fires while it still
waits, it is removed without ever starting — but the rejection it receives
is `new Error("Request timed out after <queueTimeout>ms waiting in queue")`,
which `parseError` classifies as `TIMEOUT` (HTTP 408) through its
`timed out` branch, never as `QUEUE_TIMEOUT` (HTTP 429); the
`QUEUE_TIMEOUT` code exists in the enum but is produced nowhere. -/
theorem requestQueue_queueTimeout_misclassified :
    run 1 [.enqueue 0, .enqueue 1, .queueTimeout 1] =
      ⟨[], [0], [.enq 0, .start 0, .enq 1, .qto 1]⟩ ∧
    parseErrorCode (queueTimeoutMessage 30000) = .TIMEOUT ∧
    parseErrorCode (queueTimeoutMessage 30000) ≠ .QUEUE_TIMEOUT ∧
    statusCodeMap .TIMEOUT = 408 ∧
    statusCodeMap .QUEUE_TIMEOUT = 429 := by
  refine ⟨by decide, by decide, by decide, rfl, rfl⟩

/-! ## processWithRetry (C4) -/

theorem retryGo_attempts_pos (f : Nat → Except E A) (a r : Nat) :
    1 ≤ (retryGo f a r).attemptsMade := by
  cases r with
  | zero => exact le_refl 1
  | succ r =>
      simp only [retryGo]
      cases hf : f a with
      | ok v => simp
      | error e => simp

theorem retryGo_attempts_le (f : Nat → Except E A) (a r : Nat) :
    (retryGo f a r).attemptsMade ≤ r + 1 := by
  induction r generalizing a with
  | zero => exact le_refl 1
  | succ r ih =>
      simp only [retryGo]
      cases hf : f a with
      | ok v => simp
      | error e => simpa using Nat.succ_le_succ (ih (a + 1))

theorem retryGo_sleeps (f : Nat → Except E A) (a r : Nat) :
    (retryGo f a r).sleeps =
      (List.range ((retryGo f a r).attemptsMade - 1)).map
        (fun i => backoffMs (a + i)) := by
  induction r generalizing a with
  | zero => simp [retryGo]
  | succ r ih =>
      simp only [retryGo]
      cases hf : f a with
      | ok v => simp
      | error e =>
          simp only []
          obtain ⟨k, hk⟩ : ∃ k, (retryGo f (a + 1) r).attemptsMade = k + 1 :=
            ⟨(retryGo f (a + 1) r).attemptsMade - 1, by
              have := retryGo_attempts_pos f (a + 1) r; omega⟩
          rw [ih (a + 1), hk]
          have harith : ∀ i : Nat, a + 1 + i = a + (i + 1) := fun i => by omega
          simp [List.range_succ_eq_map, List.map_map, Function.comp_def, harith]

theorem retryGo_first_success (f : Nat → Except E A) (r : Nat) :
    ∀ a n, a ≤ n → n ≤ a + r →
      (∀ m, m < n → a ≤ m → (f m).isOk = false) → (f n).isOk = true →
      (retryGo f a r).result = f n := by
  induction r with
  | zero =>
      intro a n h1 h2 _ _
      have hna : n = a := by omega
      subst hna
      rfl
  | succ r ih =>
      intro a n h1 h2 hfail hok
      by_cases hna : n = a
      · subst hna
        cases hf : f n with
        | ok v => simp [retryGo, hf]
        | error e => rw [hf] at hok; simp [Except.isOk, Except.toBool] at hok
      · have ha : a < n := lt_of_le_of_ne h1 (Ne.symm hna)
        have hfa : (f a).isOk = false := hfail a ha (le_refl a)
        cases hf : f a with
        | ok v => rw [hf] at hfa; simp [Except.isOk, Except.toBool] at hfa
        | error e =>
            simp only [retryGo, hf]
            exact ih (a + 1) n ha (by omega) (fun m hm hm2 => hfail m hm (by omega)) hok

theorem retryGo_all_fail (f : Nat → Except E A) (r : Nat) :
    ∀ a, (∀ m, a ≤ m → m ≤ a + r → (f m).isOk = false) →
      (retryGo f a r).result = f (a + r) := by
  induction r with
  | zero => intro a _; simp [retryGo]
  | succ r ih =>
      intro a h
      have hfa : (f a).isOk = false := h a (le_refl a) (by omega)
      cases hf : f a with
      | ok v => rw [hf] at hfa; simp [Except.isOk, Except.toBool] at hfa
      | error e =>
          simp only [retryGo, hf]
          rw [ih (a + 1) (fun m hm1 hm2 => h m (by omega) (by omega))]
          congr 1
          omega

/-- C4: `processWithRetry` makes at most `maxRetries + 1` attempts; it
returns the result of the first successful attempt; when every attempt
fails it throws the error of the last attempt (number `maxRetries + 1`);
and the sleep between consecutive attempts `n` and `n + 1` is
`min(1000 × 2^(n−1), 5000)` milliseconds. -/
theorem processWithRetry_spec (f : Nat → Except E A) (maxRetries : Nat) :
    (processWithRetry f maxRetries).attemptsMade ≤ maxRetries + 1 ∧
    (∀ n, n ≤ maxRetries + 1 → 1 ≤ n →
      (∀ m, m < n → 1 ≤ m → (f m).isOk = false) → (f n).isOk = true →
      (processWithRetry f maxRetries).result = f n) ∧
    ((∀ m, m < maxRetries + 2 → 1 ≤ m → (f m).isOk = false) →
      (processWithRetry f maxRetries).result = f (maxRetries + 1)) ∧
    (processWithRetry f maxRetries).sleeps =
      (List.range ((processWithRetry f maxRetries).attemptsMade - 1)).map
        (fun i => min (1000 * 2 ^ (i + 1 - 1)) 5000) := by
  refine ⟨retryGo_attempts_le f 1 maxRetries, ?_, ?_, ?_⟩
  · intro n hn h1 hfail hok
    exact retryGo_first_success f maxRetries 1 n h1 (by omega)
      (fun m hm hm1 => hfail m hm hm1) hok
  · intro hfail
    rw [processWithRetry,
      retryGo_all_fail f maxRetries 1 (fun m hm1 hm2 => hfail m (by omega) hm1)]
    congr 1
    omega
  · rw [processWithRetry, retryGo_sleeps f 1 maxRetries]
    refine List.map_congr_left (fun i _ => ?_)
    simp [backoffMs, Nat.add_comm 1 i]

/-- Witness for C4: with `maxRetries = 2` and attempts failing once then
succeeding, the second attempt's result is returned. -/
theorem processWithRetry_spec_witness :
    (processWithRetry
      (fun n => if n = 2 then (Except.ok 42 : Except String Nat)
        else Except.error "boom") 2).result =
      (fun n => if n = 2 then (Except.ok 42 : Except String Nat)
        else Except.error "boom") 2 :=
  (processWithRetry_spec _ 2).2.1 2 (by decide) (by decide) (by decide) (by decide)

/-! ## Root URL normalization (C5) -/

/-- C5 (counterexample): the live route only trims and lowercases — a
`http://` input is scraped over `http`, not rewritten to `https`, and a
scheme-less input gets no scheme, contrary to the claimed normalization
(`specNormalizeUrl`, the commented-out block). -/
theorem routeNormalizeUrl_counterexample :
    routeNormalizeUrl "HTTP://Example.com" = "http://example.com" ∧
    specNormalizeUrl "HTTP://Example.com" = "https://example.com" ∧
    routeNormalizeUrl "HTTP://Example.com" ≠ specNormalizeUrl "HTTP://Example.com" ∧
    routeNormalizeUrl "Example.com" = "example.com" ∧
    jsStartsWith (routeNormalizeUrl "Example.com") "https://" = false := by
  exact ⟨by decide, by decide, by decide, by decide, by decide⟩

/-- C5 (amended): before the root scrape the input URL is only trimmed and
lowercased; in particular the output has exactly the trimmed input's
length, so no `https://` is ever prepended, `http://` survives, and a
syntactically invalid URL passes through unrejected. -/
theorem routeNormalizeUrl_amended :
    (∀ url, (routeNormalizeUrl url).length = (jsTrim url).length) ∧
    routeNormalizeUrl "  HTTP://Example.com/A  " = "http://example.com/a" ∧
    routeNormalizeUrl "not a url" = "not a url" := by
  refine ⟨fun url => ?_, by decide, by decide⟩
  show ((jsTrim url).data.map Char.toLower).length = (jsTrim url).data.length
  exact List.length_map _ _

/-! ## Contact-link collection (C6) -/

theorem nodup_append_singleton {l : List α} {x : α} (h : l.Nodup) (hx : x ∉ l) :
    (l ++ [x]).Nodup := by
  simp [List.nodup_append, h, hx]

theorem not_mem_url_of_any_false {acc : List ContactEntry} {u : String}
    (h : ¬ acc.any (fun e => e.url = u) = true) :
    u ∉ acc.map (fun e => e.url) := by
  intro hmem
  obtain ⟨e, he, heq⟩ := List.mem_map.1 hmem
  exact h (List.any_eq_true.2 ⟨e, he, by simp [heq]⟩)

theorem mem_url_of_any_true {acc : List ContactEntry} {u : String}
    (h : acc.any (fun e => e.url = u) = true) :
    u ∈ acc.map (fun e => e.url) := by
  obtain ⟨e, he, heq⟩ := List.any_eq_true.1 h
  exact List.mem_map.2 ⟨e, he, by simpa using heq⟩

theorem processAnchor_nodup (acc : List ContactEntry) (a : Anchor)
    (h : (acc.map (fun e => e.url)).Nodup) :
    ((processAnchor acc a).map (fun e => e.url)).Nodup := by
  unfold processAnchor
  split
  · split
    · exact h
    · next hany =>
        rw [List.map_append]
        exact nodup_append_singleton h (not_mem_url_of_any_false hany)
  · split
    · split
      · exact h
      · next hany =>
          rw [List.map_append]
          exact nodup_append_singleton h (not_mem_url_of_any_false hany)
    · exact h

theorem foldl_processAnchor_nodup (anchors : List Anchor) :
    ∀ acc, (acc.map (fun e => e.url)).Nodup →
      ((anchors.foldl processAnchor acc).map (fun e => e.url)).Nodup := by
  induction anchors with
  | nil => exact fun acc h => h
  | cons a rest ih => exact fun acc h => ih _ (processAnchor_nodup acc a h)

theorem addTextEmail_nodup (acc : List ContactEntry) (email : String)
    (h : (acc.map (fun e => e.url)).Nodup) :
    ((addTextEmail acc email).map (fun e => e.url)).Nodup := by
  dsimp only [addTextEmail]
  split
  · exact h
  · next hany =>
      rw [List.map_append]
      exact nodup_append_singleton h (not_mem_url_of_any_false hany)

theorem addTextEmail_mono (acc : List ContactEntry) (email : String) {u : String}
    (h : u ∈ acc.map (fun e => e.url)) :
    u ∈ (addTextEmail acc email).map (fun e => e.url) := by
  dsimp only [addTextEmail]
  split
  · exact h
  · rw [List.map_append]
    exact List.mem_append_left _ h

theorem addTextEmail_adds (acc : List ContactEntry) (email : String) :
    ("mailto:" ++ email) ∈ (addTextEmail acc email).map (fun e => e.url) := by
  dsimp only [addTextEmail]
  split
  · next hany => exact mem_url_of_any_true hany
  · rw [List.map_append]
    exact List.mem_append_right _ (by simp)

theorem foldl_addTextEmail_nodup (emails : List String) :
    ∀ acc, (acc.map (fun e => e.url)).Nodup →
      ((emails.foldl addTextEmail acc).map (fun e => e.url)).Nodup := by
  induction emails with
  | nil => exact fun acc h => h
  | cons e rest ih => exact fun acc h => ih _ (addTextEmail_nodup acc e h)

theorem foldl_addTextEmail_mono (emails : List String) :
    ∀ acc (u : String), u ∈ acc.map (fun e => e.url) →
      u ∈ (emails.foldl addTextEmail acc).map (fun e => e.url) := by
  induction emails with
  | nil => exact fun acc u h => h
  | cons e rest ih => exact fun acc u h => ih _ u (addTextEmail_mono acc e h)

theorem foldl_addTextEmail_mem (emails : List String) :
    ∀ acc, ∀ em ∈ emails,
      ("mailto:" ++ em) ∈ (emails.foldl addTextEmail acc).map (fun e => e.url) := by
  induction emails with
  | nil => intro acc em hem; exact absurd hem (List.not_mem_nil em)
  | cons e rest ih =>
      intro acc em hem
      rcases List.mem_cons.1 hem with hem | hem
      · subst hem
        exact foldl_addTextEmail_mono rest _ _ (addTextEmail_adds acc em)
      · exact ih _ em hem

/-- C6 (counterexample): a page body containing six distinct email
addresses yields six contact entries of type `email` — the live scan adds
every unique body-text email, with no cap of 5 (the capped variant exists
only as commented-out code). -/
theorem contactLinks_email_cap_counterexample :
    ((contactLinksFromPage []
        ["a@x.com", "b@x.com", "c@x.com", "d@x.com", "e@x.com", "f@x.com"]).filter
      (fun e => e.ctype = "email")).length = 6 ∧
    ¬ ((contactLinksFromPage []
        ["a@x.com", "b@x.com", "c@x.com", "d@x.com", "e@x.com", "f@x.com"]).filter
      (fun e => e.ctype = "email")).length ≤ 5 := by
  exact ⟨by decide, by decide⟩

/-- C6 (amended): every unique email found in the body text ends up as a
`mailto:` contact URL, deduplicated against the URLs already collected
from anchors — the collected contact URLs are pairwise distinct — but
without any 5-email cap. -/
theorem contactLinks_email_collection (anchors : List Anchor)
    (emailMatches : List String) :
    ((contactLinksFromPage anchors emailMatches).map (fun e => e.url)).Nodup ∧
    ∀ em ∈ dedupKeepFirst emailMatches,
      ("mailto:" ++ em) ∈
        (contactLinksFromPage anchors emailMatches).map (fun e => e.url) := by
  constructor
  · exact foldl_addTextEmail_nodup _ _
      (foldl_processAnchor_nodup anchors [] (by simp))
  · intro em hem
    exact foldl_addTextEmail_mem _ _ em hem

/-- Witness for C6 (amended): a duplicated body-text email appears once as
a `mailto:` contact URL. -/
theorem contactLinks_email_collection_witness :
    ("mailto:" ++ "a@x.com") ∈
      (contactLinksFromPage [] ["a@x.com", "a@x.com"]).map (fun e => e.url) :=
  (contactLinks_email_collection [] ["a@x.com", "a@x.com"]).2 "a@x.com" (by decide)

/-! ## Link-bucket deduplication and the social/external merge (C7) -/

theorem not_mem_keys_of_any_false {m : List (String × String)} {k : String}
    (h : ¬ m.any (fun p => p.1 = k) = true) : k ∉ m.map Prod.fst := by
  intro hmem
  obtain ⟨p, hp, heq⟩ := List.mem_map.1 hmem
  exact h (List.any_eq_true.2 ⟨p, hp, by simp [heq]⟩)

theorem mapSet_keys (m : List (String × String)) (k v : String) :
    (mapSet m k v).map Prod.fst =
      if m.any (fun p => p.1 = k) then m.map Prod.fst
      else m.map Prod.fst ++ [k] := by
  unfold mapSet
  split
  · next h =>
      rw [List.map_map]
      refine List.map_congr_left (fun p _ => ?_)
      by_cases hp : p.1 = k
      · simp [hp]
      · simp [hp]
  · simp

theorem mapSet_keys_nodup (m : List (String × String)) (k v : String)
    (h : (m.map Prod.fst).Nodup) : ((mapSet m k v).map Prod.fst).Nodup := by
  rw [mapSet_keys]
  split
  · exact h
  · next hany => exact nodup_append_singleton h (not_mem_keys_of_any_false hany)

theorem addAll_keys_nodup (items : List (String × String)) :
    ∀ m, (m.map Prod.fst).Nodup → ((addAll m items).map Prod.fst).Nodup := by
  induction items with
  | nil => exact fun m h => h
  | cons it rest ih => exact fun m h => ih _ (mapSet_keys_nodup m it.1 it.2 h)

theorem addAllIfAbsent_keys_nodup (items : List (String × String)) :
    ∀ m, (m.map Prod.fst).Nodup → ((addAllIfAbsent m items).map Prod.fst).Nodup := by
  induction items with
  | nil => exact fun m h => h
  | cons it rest ih =>
      intro m h
      refine ih _ ?_
      dsimp only
      split
      · exact h
      · exact mapSet_keys_nodup m it.1 it.2 h

theorem foldl_sub_social_keys_nodup (subs : List PageBuckets) :
    ∀ m, (m.map Prod.fst).Nodup →
      ((subs.foldl (fun acc b => addAllIfAbsent acc b.social) m).map Prod.fst).Nodup := by
  induction subs with
  | nil => exact fun m h => h
  | cons s rest ih => exact fun m h => ih _ (addAllIfAbsent_keys_nodup s.social m h)

theorem foldl_sub_external_keys_nodup (subs : List PageBuckets) :
    ∀ m, (m.map Prod.fst).Nodup →
      ((subs.foldl (fun acc b => addAllIfAbsent acc b.external) m).map Prod.fst).Nodup := by
  induction subs with
  | nil => exact fun m h => h
  | cons s rest ih => exact fun m h => ih _ (addAllIfAbsent_keys_nodup s.external m h)

theorem mapDelete_keys_sublist (m : List (String × String)) (k : String) :
    List.Sublist ((mapDelete m k).map Prod.fst) (m.map Prod.fst) :=
  (List.filter_sublist m).map Prod.fst

theorem mapDelete_keys_nodup (m : List (String × String)) (k : String)
    (h : (m.map Prod.fst).Nodup) : ((mapDelete m k).map Prod.fst).Nodup :=
  h.sublist (mapDelete_keys_sublist m k)

theorem not_mem_mapDelete_self (m : List (String × String)) (k : String) :
    k ∉ (mapDelete m k).map Prod.fst := by
  intro h
  obtain ⟨p, hp, heq⟩ := List.mem_map.1 h
  have hkeep := List.of_mem_filter hp
  simp at hkeep
  exact hkeep heq

theorem not_mem_mapDelete_of_not_mem (m : List (String × String)) (k x : String)
    (h : x ∉ m.map Prod.fst) : x ∉ (mapDelete m k).map Prod.fst :=
  fun hx => h ((mapDelete_keys_sublist m k).mem hx)

theorem foldl_delete_preserves_not_mem (L : List (String × String)) :
    ∀ (ext : List (String × String)) (x : String), x ∉ ext.map Prod.fst →
      x ∉ ((L.foldl (fun ext q => mapDelete ext q.1) ext).map Prod.fst) := by
  induction L with
  | nil => exact fun ext x h => h
  | cons q rest ih =>
      exact fun ext x h => ih _ x (not_mem_mapDelete_of_not_mem ext q.1 x h)

theorem foldl_delete_removes (L : List (String × String)) :
    ∀ (ext : List (String × String)), ∀ p ∈ L,
      p.1 ∉ ((L.foldl (fun ext q => mapDelete ext q.1) ext).map Prod.fst) := by
  induction L with
  | nil => intro ext p hp; exact absurd hp (List.not_mem_nil p)
  | cons q rest ih =>
      intro ext p hp
      rcases List.mem_cons.1 hp with hp | hp
      · subst hp
        exact foldl_delete_preserves_not_mem rest _ _ (not_mem_mapDelete_self ext p.1)
      · exact ih _ p hp

theorem foldl_delete_keys_nodup (L : List (String × String)) :
    ∀ (ext : List (String × String)), (ext.map Prod.fst).Nodup →
      ((L.foldl (fun ext q => mapDelete ext q.1) ext).map Prod.fst).Nodup := by
  induction L with
  | nil => exact fun ext h => h
  | cons q rest ih => exact fun ext h => ih _ (mapDelete_keys_nodup ext q.1 h)

/-- C7 (counterexample): a URL contributed as external by the main page and
as social by a subpage ends up in both merged buckets — the
social-from-external deletion runs before the subpage results are folded
in, so the merged sets need not be disjoint. -/
theorem merge_social_external_counterexample :
    "https://twitter.com/x" ∈
      (mergeSocialExternal ⟨[], [("https://twitter.com/x", "t")]⟩
        [⟨[("https://twitter.com/x", "twitter")], []⟩]).social.map Prod.fst ∧
    "https://twitter.com/x" ∈
      (mergeSocialExternal ⟨[], [("https://twitter.com/x", "t")]⟩
        [⟨[("https://twitter.com/x", "twitter")], []⟩]).external.map Prod.fst := by
  exact ⟨by decide, by decide⟩

/-- C7 (amended): every bucket deduplicates by URL — `removeDuplicates`
output and both merged buckets have pairwise-distinct URLs — and
social/external disjointness holds for the main page's own URLs (the
deletion step runs over them), but subpage contributions folded in
afterwards are not subject to it. -/
theorem linkBundle_dedup_and_merge (items : List (String × String))
    (main : PageBuckets) (subs : List PageBuckets) :
    ((removeDuplicates items).map Prod.fst).Nodup ∧
    ((mergeSocialExternal main subs).social.map Prod.fst).Nodup ∧
    ((mergeSocialExternal main subs).external.map Prod.fst).Nodup ∧
    (∀ k ∈ (mergeSocialExternal main []).social.map Prod.fst,
      k ∉ (mergeSocialExternal main []).external.map Prod.fst) := by
  refine ⟨guardedDedupAux_key_nodup _ _ _ _, ?_, ?_, ?_⟩
  · dsimp only [mergeSocialExternal]
    exact foldl_sub_social_keys_nodup subs _ (addAll_keys_nodup main.social [] (by simp))
  · dsimp only [mergeSocialExternal]
    exact foldl_sub_external_keys_nodup subs _
      (foldl_delete_keys_nodup (addAll [] main.social) _
        (addAll_keys_nodup main.external [] (by simp)))
  · intro k hk
    dsimp only [mergeSocialExternal, List.foldl_nil] at hk ⊢
    obtain ⟨p, hp, hpe⟩ := List.mem_map.1 hk
    exact hpe ▸ foldl_delete_removes (addAll [] main.social) _ p hp

/-- Witness for C7 (amended): with no subpages, a URL that the main page
lists both as social and as external is removed from the merged external
bucket. -/
theorem linkBundle_dedup_and_merge_witness :
    "https://twitter.com/x" ∈
      (mergeSocialExternal ⟨[("https://twitter.com/x", "twitter")],
        [("https://twitter.com/x", "t")]⟩ []).social.map Prod.fst ∧
    "https://twitter.com/x" ∉
      (mergeSocialExternal ⟨[("https://twitter.com/x", "twitter")],
        [("https://twitter.com/x", "t")]⟩ []).external.map Prod.fst :=
  ⟨by decide,
    (linkBundle_dedup_and_merge [] ⟨[("https://twitter.com/x", "twitter")],
      [("https://twitter.com/x", "t")]⟩ []).2.2.2 "https://twitter.com/x" (by decide)⟩


/-! ## Subpage selection (C8, C10) -/

/-- C8 (counterexample): `selectBestSubpages` applies a domain-core
containment filter the claim does not mention.  With root
`https://example.com:8080` and candidate `https://example.com/a` — same
hostname, different normalized form — the claimed pipeline keeps the
candidate while the source drops it, because `"example.com"` does not
contain `"example.com:8080"` as a substring. -/
theorem selectBestSubpages_counterexample :
    selectBestSubpages [.abs ⟨"https", false, "example.com", none, ["a"], none⟩]
      (some ⟨"https", false, "example.com", some 8080, [], none⟩) 1 [] [] 2 = [] ∧
    selectBestSubpagesClaimed [.abs ⟨"https", false, "example.com", none, ["a"], none⟩]
      (some ⟨"https", false, "example.com", some 8080, [], none⟩) 1 [] [] 2 =
      [⟨"https", false, "example.com", none, ["a"], none⟩] ∧
    normCompare ⟨"https", false, "example.com", none, ["a"], none⟩ ≠
      normCompare ⟨"https", false, "example.com", some 8080, [], none⟩ := by
  exact ⟨by decide, by decide, by decide⟩

/-- C8 (amended): the selection returns at most `count` URLs; after the
route-level filter no entry normalizes to the root and the entries are
pairwise distinct by normalized form; and every selected URL additionally
passes the domain-core containment check
(`normalizedUrl.split('/')[0].includes(normalizedMain.split('/')[0])`)
that the source applies on top of the claimed root/duplicate removal. -/
theorem selectBestSubpages_spec (pageUrls : List LinkUrl) (b : Url) (count : Nat)
    (keywords excludePatterns : List String) (maxDepth : Nat) :
    (selectBestSubpages pageUrls (some b) count keywords excludePatterns
      maxDepth).length ≤ count ∧
    (routeFilterSubpages (selectBestSubpages pageUrls (some b) count keywords
      excludePatterns maxDepth) b).length ≤ count ∧
    (∀ u ∈ routeFilterSubpages (selectBestSubpages pageUrls (some b) count keywords
        excludePatterns maxDepth) b, normCompare u ≠ normCompare b) ∧
    ((routeFilterSubpages (selectBestSubpages pageUrls (some b) count keywords
        excludePatterns maxDepth) b).map normCompare).Nodup ∧
    (∀ u ∈ selectBestSubpages pageUrls (some b) count keywords excludePatterns
        maxDepth, normCompare u ≠ normCompare b ∧
      jsIncludes (takeToSlash (normCompare u)) (takeToSlash (normCompare b)) = true) := by
  have hlen : (selectBestSubpages pageUrls (some b) count keywords excludePatterns
      maxDepth).length ≤ count := by
    dsimp only [selectBestSubpages]
    rw [List.length_take]
    exact min_le_left _ _
  refine ⟨hlen, ?_, ?_, ?_, ?_⟩
  · exact le_trans (guardedDedupAux_length_le _ _ _ _) hlen
  · intro u hu
    have := (guardedDedupAux_mem _ _ _ _ u hu).2.1
    simpa using this
  · exact guardedDedupAux_key_nodup _ _ _ _
  · intro u hu
    dsimp only [selectBestSubpages] at hu
    have hu2 := List.mem_of_mem_take hu
    have := (guardedDedupAux_mem _ _ _ _ u hu2).2.1
    simpa using this

/-- Witness for C8 (amended): a concrete selected subpage is distinct from
the root and passes the domain-core check. -/
theorem selectBestSubpages_spec_witness :
    normCompare ⟨"https", false, "example.com", none, ["about"], none⟩ ≠
      normCompare ⟨"https", false, "example.com", none, [], none⟩ ∧
    jsIncludes
      (takeToSlash (normCompare ⟨"https", false, "example.com", none, ["about"], none⟩))
      (takeToSlash (normCompare ⟨"https", false, "example.com", none, [], none⟩)) = true :=
  (selectBestSubpages_spec [.abs ⟨"https", false, "example.com", none, ["about"], none⟩]
    ⟨"https", false, "example.com", none, [], none⟩ 1 [] [] 2).2.2.2.2
    ⟨"https", false, "example.com", none, ["about"], none⟩ (by decide)

/-- C10: `selectBestSubpages` is a total function returning at most `count`
URLs for every input; when the scoring pipeline errors (the unguarded
`new URL(baseUrl)` throws, here `baseUrl = none`), it returns the fallback
— the first `count` unique resolvable URLs from the raw input — and that
fallback is independent of the exclude patterns, the keywords and the
maximum depth. -/
theorem selectBestSubpages_total (pageUrls : List LinkUrl) (base : Option Url)
    (count : Nat) (keywords excludePatterns : List String) (maxDepth : Nat)
    (keywords2 excludePatterns2 : List String) (maxDepth2 : Nat) :
    (selectBestSubpages pageUrls base count keywords excludePatterns
      maxDepth).length ≤ count ∧
    selectBestSubpages pageUrls none count keywords excludePatterns maxDepth =
      fallbackSelect pageUrls none count ∧
    selectBestSubpages pageUrls none count keywords excludePatterns maxDepth =
      selectBestSubpages pageUrls none count keywords2 excludePatterns2 maxDepth2 := by
  refine ⟨?_, rfl, rfl⟩
  cases base with
  | none =>
      dsimp only [selectBestSubpages, fallbackSelect]
      rw [List.length_take]
      exact min_le_left _ _
  | some b =>
      dsimp only [selectBestSubpages]
      rw [List.length_take]
      exact min_le_left _ _

/-! ## Subpage failure isolation (C9) -/

/-- C9 (counterexample): a failed subpage produces the
`{success: false, url, error}` object inside the batch results, but the
aggregated response's `subpages` list filters to successful results only —
the failed subpage does not appear in it; only `stats.subpagesFailed`
counts it, and the crawl still succeeds. -/
theorem failed_subpage_counterexample :
    processUrlBatch [(⟨"https", false, "example.com", none, ["p"], none⟩,
        .fail "boom")] =
      [⟨false, ⟨"https", false, "example.com", none, ["p"], none⟩, "", some "boom"⟩] ∧
    aggregateCrawl (processUrlBatch
      [(⟨"https", false, "example.com", none, ["p"], none⟩, .fail "boom")]) =
      ⟨true, [], 1⟩ := by
  exact ⟨by decide, by decide⟩

/-- C9 (amended): the crawl succeeds regardless of subpage failures; every
entry of the returned `subpages` list has `success = true`; each failed
subpage yields a `{success: false, url, error}` entry in the internal
batch results and is counted in `stats.subpagesFailed`, but is excluded
from the returned `subpages` list. -/
theorem crawl_failure_isolation (jobs : List (Url × SubOutcome)) :
    (aggregateCrawl (processUrlBatch jobs)).success = true ∧
    (∀ s ∈ (aggregateCrawl (processUrlBatch jobs)).subpages, s.success = true) ∧
    (∀ j ∈ jobs, ∀ msg, j.2 = .fail msg →
      (⟨false, j.1, "", some msg⟩ : SubpageEntry) ∈ processUrlBatch jobs) ∧
    (aggregateCrawl (processUrlBatch jobs)).subpagesFailed =
      (jobs.filter (fun j =>
        match j.2 with | .ok _ => false | _ => true)).length := by
  refine ⟨rfl, ?_, ?_, ?_⟩
  · intro s hs
    dsimp only [aggregateCrawl, simplifiedSubpages] at hs
    obtain ⟨r, _, hr⟩ := List.mem_map.1 hs
    rw [← hr]
  · intro j hj msg hmsg
    refine List.mem_map.2 ⟨j, hj, ?_⟩
    obtain ⟨u, o⟩ := j
    cases o <;> simp_all
  · dsimp only [aggregateCrawl]
    induction jobs with
    | nil => rfl
    | cons j rest ih =>
        obtain ⟨u, o⟩ := j
        cases o <;> simp [processUrlBatch, List.filter_cons] at ih ⊢ <;>
          simpa [processUrlBatch] using ih

/-- Witness for C9 (amended): the failed job's batch entry exists. -/
theorem crawl_failure_isolation_witness :
    (⟨false, ⟨"https", false, "example.com", none, [], none⟩, "", some "x"⟩ :
        SubpageEntry) ∈
      processUrlBatch [(⟨"https", false, "example.com", none, [], none⟩,
        .fail "x")] :=
  (crawl_failure_isolation [(⟨"https", false, "example.com", none, [], none⟩,
      .fail "x")]).2.2.1
    (⟨"https", false, "example.com", none, [], none⟩, .fail "x") (by decide) "x" rfl

end Scrapebase
